import Mathlib

/-!
Verification of the libyang XML data parser and JSON printer
(src/parser_xml.c, src/printer_json.c) against its specification.

Modelling conventions:
* Interned dictionary strings (element names, namespace URIs, module names)
  are modelled as Lean String; the dictionary contract makes pointer
  identity of interned strings coincide with string equality, so the
  C identity comparisons become String equality here.
* Pointer identity of schema nodes (lys_node *) is modelled by a unique
  node id (nid) carried by every schema node.
* Bit-masked parser option words (LYD_OPT_*) are modelled as a structure
  of Booleans; the code only ever tests individual bits.
* The global ly_errno slot is threaded explicitly: each embedded function
  takes the current errno and returns the updated one.  LOGVAL/ly_vlog
  sets LY_EVALID, LOGERR sets its argument, LOGINT sets LY_EINT,
  LOGWRN sets nothing.
* External collaborators that live outside the five source files
  (lyp_parse_value, transform_xml2json, lyv_data_context,
  lyv_data_content, resolve_unres_data) are uninterpreted oracles
  collected in the Ext structure.
* Sibling chaining by next/prev pointers is modelled by Lean lists for
  the functional tree; the pointer-level prev ring manipulation of
  xml_parse_data (lines 290-303) is modelled separately on an explicit
  pointer state (RingState) to state the ring invariant.
-/

namespace Libyang

/-- YANG built-in type bases, LY_DATA_TYPE from tree_schema.h. -/
inductive LyDataType where
  | der | binary | bits | boolean | dec64 | empty | enum
  | ident | inst | leafref | str | uni
  | int8 | uint8 | int16 | uint16 | int32 | uint32 | int64 | uint64
  deriving DecidableEq, Repr

/-- Schema nodetype tags, LYS_NODE from tree_schema.h. -/
inductive LysNodeType where
  | unknown | augment | container | choice | leaf | leaflist | list
  | anyxml | grouping | cas | input | output | notif | rpc | uses
  deriving DecidableEq, Repr

/-- Module back-reference of a schema node: name, namespace URI and, when
the owner is a submodule (lys_module.type = 1), the name of the belongs-to
module. -/
structure LyModRef where
  name : String
  ns : String
  belongsto : Option String
  deriving DecidableEq, Repr

/-- Type descriptor of a leaf or leaf-list schema node: the built-in base
and, for a union, the list of member types (lys_type.info.uni). -/
inductive LysType where
  | mk (base : LyDataType) (uni : List LysType)

def LysType.base : LysType → LyDataType
  | .mk b _ => b

def LysType.uni : LysType → List LysType
  | .mk _ u => u

/-- Schema node (struct lys_node): nodetype, interned name, module
back-reference, the LYS_USERORDERED flag bit, the leaf type descriptor and
the child sibling list.  The nid field models the node's address, used
where the C code compares lys_node pointers. -/
inductive LysNode where
  | mk (nid : Nat) (nodetype : LysNodeType) (name : String) (module : LyModRef)
       (userordered : Bool) (typ : LysType) (child : List LysNode)

def LysNode.nid : LysNode → Nat
  | .mk i _ _ _ _ _ _ => i

def LysNode.nodetype : LysNode → LysNodeType
  | .mk _ t _ _ _ _ _ => t

def LysNode.name : LysNode → String
  | .mk _ _ n _ _ _ _ => n

def LysNode.module : LysNode → LyModRef
  | .mk _ _ _ m _ _ _ => m

def LysNode.userordered : LysNode → Bool
  | .mk _ _ _ _ u _ _ => u

def LysNode.typ : LysNode → LysType
  | .mk _ _ _ _ _ ty _ => ty

def LysNode.child : LysNode → List LysNode
  | .mk _ _ _ _ _ _ c => c

/-! ## Schema resolver (xml_data_search_schemanode, parser_xml.c lines 38-74) -/

/-- Transparent schema constructs that the resolver descends through:
LYS_CHOICE | LYS_CASE | LYS_USES | LYS_INPUT | LYS_OUTPUT. -/
def LysNodeType.transparent : LysNodeType → Bool
  | .choice | .cas | .uses | .input | .output => true
  | _ => false

/-- Schema resolver, translated from xml_data_search_schemanode.  The xml
element is represented by its interned name and namespace URI; start is
the sibling list searched.  Groupings are skipped; transparent nodes are
descended through, returning the first hit; a remaining node is returned
iff its name equals the element name and its module namespace equals the
element namespace (identity of interned strings, here String equality). -/
def xml_data_search_schemanode (xname xns : String) : List LysNode → Option LysNode
  | [] => none
  | n :: rest =>
    if n.nodetype = .grouping then
      xml_data_search_schemanode xname xns rest
    else if n.nodetype.transparent then
      match xml_data_search_schemanode xname xns n.child with
      | some aux => some aux
      | none => xml_data_search_schemanode xname xns rest
    else if n.name = xname ∧ n.module.ns = xns then
      some n
    else
      xml_data_search_schemanode xname xns rest
  termination_by l => sizeOf l
  decreasing_by
    all_goals simp
    all_goals (cases n with | mk i t nm md uo ty c => simp [LysNode.child]; omega)

/-- Acceptance condition of the resolver on a concrete schema node, as the
specification states it: name equality and module namespace equality. -/
def schemaAccept (xname xns : String) (n : LysNode) : Bool :=
  n.name = xname ∧ n.module.ns = xns

/-- Flattening of a schema sibling forest in resolver order, written from
the specification's words: groupings are dropped, transparent nodes are
replaced by their (recursively flattened) children in place, the remaining
concrete nodes are kept in sibling order. -/
def flattenSchema : List LysNode → List LysNode
  | [] => []
  | n :: rest =>
    if n.nodetype = .grouping then flattenSchema rest
    else if n.nodetype.transparent then flattenSchema n.child ++ flattenSchema rest
    else n :: flattenSchema rest
  termination_by l => sizeOf l
  decreasing_by
    all_goals simp
    all_goals (cases n with | mk i t nm md uo ty c => simp [LysNode.child]; omega)


/-! ## Value decoder (xml_get_value, parser_xml.c lines 77-160) -/

/-- Parser option bits (LYD_OPT_*), one Boolean per bit tested by the
sources. -/
structure Options where
  strict : Bool
  destruct : Bool
  filter : Bool
  edit : Bool
  get : Bool
  getconfig : Bool
  deriving DecidableEq, Repr

/-- Option word 0: no flag set. -/
def Options.zero : Options := ⟨false, false, false, false, false, false⟩

/-- Error codes written to the thread-local ly_errno slot.  LOGVAL and the
logging of the external helpers set LY_EVALID, LOGERR sets its explicit
argument, LOGINT sets LY_EINT. -/
inductive LyErr where
  | einval | evalid | eint
  deriving DecidableEq, Repr

/-- State of the ly_errno slot: none models LY_SUCCESS (0). -/
abbrev Errno := Option LyErr

/-- Decoded value fields of struct lyd_node_leaf_list: value_str and
value_type (the value union itself is produced by the external
lyp_parse_value and is not observable in the parser sources). -/
structure LeafVal where
  value_str : Option String
  value_type : LyDataType
  deriving DecidableEq, Repr

/-- Outcome alternatives of lyv_data_content as observed by
xml_parse_data lines 390-397. -/
inductive ContentOutcome where
  | ok | hardfail | discard
  deriving DecidableEq, Repr

/-- Oracles for the external collaborators called by the parser but
defined outside the five source files. -/
structure Ext where
  /-- lyp_parse_value leaf type resolve unres line: true means success
  (the C function returns 0).  Arguments: the type tried, the current
  value_str of the leaf and the resolve flag. -/
  parse_value : LysType → Option String → Bool → Bool
  /-- transform_xml2json ctx expr xml log: the namespace-prefix to
  module-name rewrite of the textual value; none on failure.  The log
  flag only controls logging, not the result. -/
  x2j : Option String → Option String
  /-- lyv_data_context result options line unres: true means the
  validator FAILED (non-zero return). -/
  data_context_fails : LysNode → Options → Bool
  /-- lyv_data_content result options line unres: outcome of the final
  validator: 0 = success; non-zero with ly_errno set = hard failure;
  non-zero with ly_errno clear = silent discard of the node. -/
  data_content : LysNode → Options → ContentOutcome
  /-- resolve_unres_data unres: true means the deferred leafref and
  instance-identifier resolution pass FAILED (non-zero return). -/
  resolve_unres_fails : Bool


/-- True for the path-bearing bases LY_TYPE_IDENT and LY_TYPE_INST. -/
def LyDataType.pathbearing : LyDataType → Bool
  | .ident | .inst => true
  | _ => false

/-- Union decoding loop of xml_get_value (lines 117-149).  The member
list stands for the declaration-ordered subtypes delivered by
lyp_get_next_union_type; that helper is outside the sources, so the
iteration order is modelled from the spec: subtypes are tried in textual
order.  orig is the leaf's textual value as taken from the element.  A
successful try returns the member's base (written to value_type) and the
value_str left in the leaf: the xml2json translation for a path-bearing
member (kept on success), the original text otherwise.  A failed
translation or parse restores the original text and moves to the next
member; an exhausted list is the failure of the whole value. -/
def xml_get_value_union (ext : Ext) (resolve : Bool) (orig : Option String) :
    List LysType → Option LeafVal
  | [] => none
  | t :: rest =>
    if t.base.pathbearing then
      match ext.x2j orig with
      | none => xml_get_value_union ext resolve orig rest
      | some s =>
        if ext.parse_value t (some s) resolve then some ⟨some s, t.base⟩
        else xml_get_value_union ext resolve orig rest
    else
      if ext.parse_value t orig resolve then some ⟨orig, t.base⟩
      else xml_get_value_union ext resolve orig rest

/-- Value decoder, translated from xml_get_value.  content is
xml->content (the textual payload of the element, NULL allowed); the
schema type of the leaf is stype.  Returns the leaf's decoded value
fields, or none for EXIT_FAILURE. -/
def xml_get_value (ext : Ext) (stype : LysType) (content : Option String)
    (options : Options) : Option LeafVal :=
  -- leaf->value_str = xml->content; leaf->value_type = stype->base
  if options.filter ∧ content = none then
    -- no value in filter (selection) node -> nothing more is needed
    some ⟨none, stype.base⟩
  else
    let resolve := !(options.filter || options.edit || options.get || options.getconfig)
    -- direct IDENT/INST: convert the path from XML form to JSON form
    match (if stype.base.pathbearing then
             match ext.x2j content with
             | none => none          -- EXIT_FAILURE
             | some s => some (some s)
           else some content : Option (Option String)) with
    | none => none
    | some vstr =>
      if stype.base = .uni then
        xml_get_value_union ext resolve vstr stype.uni
      else
        if ext.parse_value stype vstr resolve then some ⟨vstr, stype.base⟩
        else none

/-- Acceptance of a union member, stated from the spec: a path-bearing
member accepts when the silent xml2json translation succeeds and the
translated text parses under the member type; any other member accepts
when the original text parses under the member type. -/
def unionMemberAccepts (ext : Ext) (resolve : Bool) (orig : Option String)
    (t : LysType) : Bool :=
  if t.base.pathbearing then
    match ext.x2j orig with
    | none => false
    | some s => ext.parse_value t (some s) resolve
  else ext.parse_value t orig resolve

/-- The value_str left in the leaf by a winning union member. -/
def unionMemberValue (ext : Ext) (orig : Option String) (t : LysType) :
    Option String :=
  if t.base.pathbearing then ext.x2j orig else orig



/-! ## Edit attribute grammar (xml_parse_data, parser_xml.c lines 214-267) -/

/-- Attribute kinds of the XML tokenizer (xml_internal.h, outside the
sources): a standard attribute or a namespace declaration. -/
inductive LyxmlAttrType where
  | std | nsdecl
  deriving DecidableEq, Repr

/-- XML attribute as delivered by the tokenizer: kind, resolved namespace
value (none when the attribute has no namespace), local name and value. -/
structure LyxmlAttr where
  atype : LyxmlAttrType
  ns : Option String
  name : String
  value : String
  deriving DecidableEq, Repr

/-- Modelled from the spec: the LY_NSYANG macro (xml_internal.h, outside
the sources) is the base YANG namespace URI in which the NETCONF edit
attributes insert and value live. -/
def LY_NSYANG : String := "urn:ietf:params:xml:ns:yang:1"

/-- Errors of the edit-attribute check, one per LOGVAL call of
lines 224-266. -/
inductive EditAttrErr where
  | inattrInsert    -- LYE_INATTR: insert on a non-user-ordered node
  | toomanyInsert   -- LYE_TOOMANY: more than one insert attribute
  | inargInsert     -- LYE_INARG: insert value not first/last/before/after
  | inattrValue     -- LYE_INATTR: value attribute without before/after
  | missattrValue   -- LYE_MISSATTR: before/after without value attribute
  | toomanyValue    -- LYE_TOOMANY: more than one value attribute
  deriving DecidableEq, Repr

/-- True for attributes examined by the loops: standard kind, namespace
present, the given local name, and the namespace string equal to
LY_NSYANG (the C code skips everything else). -/
def isYangAttr (nm : String) (a : LyxmlAttr) : Bool :=
  a.atype = .std && a.ns = some LY_NSYANG && a.name = nm

/-- First attribute loop of the edit check (lines 216-242): scans for
insert attributes, tracking the C counter i (0 none seen, 1 insert
first/last, 2 insert before/after). -/
def xml_edit_insert_loop (uo : Bool) (i : Nat) :
    List LyxmlAttr → Except EditAttrErr Nat
  | [] => .ok i
  | a :: rest =>
    if ¬ isYangAttr "insert" a then xml_edit_insert_loop uo i rest
    else if ¬ uo then .error .inattrInsert
    else if i ≠ 0 then .error .toomanyInsert
    else if a.value = "first" ∨ a.value = "last" then xml_edit_insert_loop uo 1 rest
    else if a.value = "before" ∨ a.value = "after" then xml_edit_insert_loop uo 2 rest
    else .error .inargInsert

/-- Second attribute loop (lines 244-257): scans for value attributes,
erroring unless i reached 2, and counting them on top of i. -/
def xml_edit_value_loop (i : Nat) : List LyxmlAttr → Except EditAttrErr Nat
  | [] => .ok i
  | a :: rest =>
    if ¬ isYangAttr "value" a then xml_edit_value_loop i rest
    else if i < 2 then .error .inattrValue
    else xml_edit_value_loop (i + 1) rest

/-- Edit-attribute check of xml_parse_data (lines 214-267), run only
under LYD_OPT_EDIT: both loops followed by the final counter tests
(i = 2: value missing for before/after; i > 3: duplicate value). -/
def xml_check_edit_attrs (uo : Bool) (attrs : List LyxmlAttr) :
    Except EditAttrErr Unit :=
  match xml_edit_insert_loop uo 0 attrs with
  | .error e => .error e
  | .ok i =>
    match xml_edit_value_loop i attrs with
    | .error e => .error e
    | .ok i =>
      if i = 2 then .error .missattrValue
      else if i > 3 then .error .toomanyValue
      else .ok ()

/-- Valid arguments of the insert attribute. -/
def insertArgOk (a : LyxmlAttr) : Prop :=
  a.value = "first" ∨ a.value = "last" ∨ a.value = "before" ∨ a.value = "after"

/-- True when the insert attribute requests a positional insert. -/
def insertPositional (a : LyxmlAttr) : Prop :=
  a.value = "before" ∨ a.value = "after"



/-- Composition of the two edit-attribute loops and the final counter
tests, with the insert attributes I and value attributes V already
separated out. -/
def xml_check_edit_core (uo : Bool) (I V : List LyxmlAttr) :
    Except EditAttrErr Unit :=
  match xml_edit_insert_loop uo 0 I with
  | .error e => .error e
  | .ok i =>
    match xml_edit_value_loop i V with
    | .error e => .error e
    | .ok i =>
      if i = 2 then .error .missattrValue
      else if i > 3 then .error .toomanyValue
      else .ok ()

/-- Edit-attribute grammar as the specification states it, over the
insert attributes I and value attributes V of the element: every insert
attribute requires a user-ordered schema node and an argument among
first/last/before/after; at most one insert attribute; exactly one value
attribute when the insert is before/after, none otherwise. -/
def editGrammarCore (uo : Bool) (I V : List LyxmlAttr) : Prop :=
  (∀ a ∈ I, uo = true ∧ insertArgOk a)
  ∧ I.length ≤ 1
  ∧ ((∃ a ∈ I, insertPositional a) → V.length = 1)
  ∧ ((¬ ∃ a ∈ I, insertPositional a) → V = [])

/-- Edit-attribute grammar of an element's full attribute list. -/
def editGrammarOk (uo : Bool) (attrs : List LyxmlAttr) : Prop :=
  editGrammarCore uo (attrs.filter (isYangAttr "insert"))
    (attrs.filter (isYangAttr "value"))


/-! ## Sibling prev ring (xml_parse_data, parser_xml.c lines 290-303)

The functional tree uses Lean lists for sibling order; the pointer level
of the link-in step is modelled here explicitly to state the ring
invariant of the spec.  Nodes are addresses (Nat); a state carries the
next pointer (none models NULL) and the never-NULL prev pointer. -/

/-- Pointwise update of a pointer map. -/
def updNat {α : Type} (f : Nat → α) (k : Nat) (v : α) : Nat → α :=
  fun x => if x = k then v else f x

/-- Pointer state of the sibling links. -/
structure RingState where
  next : Nat → Option Nat
  prev : Nat → Nat

/-- Backward walk of the link-in step, from the C loop
for (diter = prev; diter->prev != prev; diter = diter->prev);
The C loop carries no fuel and terminates by the ring invariant; the
model adds explicit fuel, and the ring theorem shows that the length of
the sibling list is enough fuel. -/
def lyd_fix_last_walk (pm : Nat → Nat) (p : Nat) : Nat → Nat → Nat
  | 0, d => d
  | fuel + 1, d => if pm d = p then d else lyd_fix_last_walk pm p fuel (pm d)

/-- Link-in of a freshly allocated node, translated from xml_parse_data
lines 294-303: with a previous sibling, set result->prev = prev and
prev->next = result, walk back to the first sibling (the node whose prev
points at prev, the old last) and point its prev at result; without one,
set result->prev = result. -/
def lyd_link_sibling (st : RingState) (result : Nat) (prevOpt : Option Nat)
    (fuel : Nat) : RingState :=
  match prevOpt with
  | none => { st with prev := updNat st.prev result result }
  | some p =>
    let st1 : RingState :=
      { next := updNat st.next p (some result),
        prev := updNat st.prev result p }
    let diter := lyd_fix_last_walk st1.prev p fuel p
    { st1 with prev := updNat st1.prev diter result }

/-- Validity of a sibling ring holding exactly the nodes of l in order:
consecutive siblings are linked by next and back-linked by prev, the
last sibling's next is NULL, and the first sibling's prev points at the
last (so a single sibling's prev points at itself). -/
structure IsRing (st : RingState) (l : List Nat) : Prop where
  nonempty : l ≠ []
  nodup : l.Nodup
  chain : l.Chain' (fun a b => st.next a = some b ∧ st.prev b = a)
  last_next : ∀ x, l.getLast? = some x → st.next x = none
  head_prev : ∀ x y, l.head? = some x → l.getLast? = some y → st.prev x = y


/-! ## Parse driver (xml_parse_data and lyd_parse_xml_, parser_xml.c
lines 162-488) -/

/-- XML element as delivered by the tokenizer: interned name, resolved
namespace value of the element (xml->ns->value; none when the element
has no namespace), textual content, attributes and children. -/
inductive LyxmlElem where
  | mk (name : String) (ns : Option String) (content : Option String)
       (attr : List LyxmlAttr) (child : List LyxmlElem)

def LyxmlElem.name : LyxmlElem → String
  | .mk n _ _ _ _ => n

def LyxmlElem.ns : LyxmlElem → Option String
  | .mk _ n _ _ _ => n

def LyxmlElem.content : LyxmlElem → Option String
  | .mk _ _ c _ _ => c

def LyxmlElem.attr : LyxmlElem → List LyxmlAttr
  | .mk _ _ _ a _ => a

def LyxmlElem.child : LyxmlElem → List LyxmlElem
  | .mk _ _ _ _ c => c

/-- Loaded module of the schema context (struct lys_module as used by
the parser): name, namespace and top-level data sibling list. -/
structure LyModule where
  name : String
  ns : String
  data : List LysNode

/-- Schema context (struct ly_ctx): the list of loaded modules
(ctx->models.list, 0 ≤ i < ctx->models.used). -/
structure LyCtx where
  models : List LyModule

/-- ly_ctx_get_module_by_ns ctx ns NULL (context.c, outside the
sources): the loaded module with the given namespace. -/
def ly_ctx_get_module_by_ns (ctx : LyCtx) (ns : String) : Option LyModule :=
  ctx.models.find? (fun m => m.ns = ns)

/-- Root schema search of xml_parse_data lines 188-200: the first module
whose namespace equals the element's namespace is selected, and within
it the top-level sibling list is scanned for the element's name (no
transparent descent at the root). -/
def rootSchemaSearch (ctx : LyCtx) (xname xns : String) : Option LysNode :=
  match ctx.models.find? (fun m => m.ns = xns) with
  | none => none
  | some m => m.data.find? (fun sc => sc.name = xname)

/-- Data attribute (struct lyd_attr): owning module name, attribute name
and value. -/
structure LydAttr where
  modName : String
  name : String
  value : String
  deriving DecidableEq, Repr

/-- Attribute copying loop of xml_parse_data lines 338-366: standard
attributes with a namespace whose module is known become data
attributes (appended in order); attributes without a namespace and
attributes of unknown modules are warned about and skipped. -/
def copyAttrs (ctx : LyCtx) : List LyxmlAttr → List LydAttr
  | [] => []
  | a :: rest =>
    if a.atype ≠ .std then copyAttrs ctx rest
    else
      match a.ns with
      | none => copyAttrs ctx rest
      | some ns =>
        match ly_ctx_get_module_by_ns ctx ns with
        | none => copyAttrs ctx rest
        | some m => ⟨m.name, a.name, a.value⟩ :: copyAttrs ctx rest

/-- Data node (struct lyd_node and its leaf/anyxml variants): schema
back-pointer, attribute list, decoded leaf value (for LYS_LEAF and
LYS_LEAFLIST), detached anyxml payload (for LYS_ANYXML) and children
(for the inner nodetypes).  Sibling order is the list order of the
parent's children; the pointer-level prev ring is modelled by RingState
above. -/
inductive LydNode where
  | mk (schema : LysNode) (attr : List LydAttr) (leaf : Option LeafVal)
       (lref : Option LydNode) (anyv : List LyxmlElem) (child : List LydNode)

def LydNode.schema : LydNode → LysNode
  | .mk sc _ _ _ _ _ => sc

def LydNode.attr : LydNode → List LydAttr
  | .mk _ a _ _ _ _ => a

def LydNode.leaf : LydNode → Option LeafVal
  | .mk _ _ lv _ _ _ => lv

/-- Leafref target content (value.leafref), bound by the external
deferred resolver; none while unresolved. -/
def LydNode.lref : LydNode → Option LydNode
  | .mk _ _ _ lr _ _ => lr

def LydNode.anyv : LydNode → List LyxmlElem
  | .mk _ _ _ _ av _ => av

def LydNode.child : LydNode → List LydNode
  | .mk _ _ _ _ _ c => c

/-- Nodetypes accepted by the allocation switch of xml_parse_data lines
269-288 (any other nodetype hits LOGINT). -/
def LysNodeType.instantiable : LysNodeType → Bool
  | .container | .list | .notif | .rpc | .leaf | .leaflist | .anyxml => true
  | _ => false

/-- Nodetypes with havechildren = 1 in that switch. -/
def LysNodeType.havechildren : LysNodeType → Bool
  | .container | .list | .notif | .rpc => true
  | _ => false

mutual
/-- Per-element parser, translated from xml_parse_data.  schema_parent
is the schema node whose children are searched when parsing RPC output
(the C schema_parent argument); parent is the schema of the parent data
node (none at the root).  Returns the C int return value (0 or -1), the
built node (none when the element was skipped or discarded) and the
updated errno. -/
def xml_parse_data (ext : Ext) (ctx : LyCtx) (xml : LyxmlElem)
    (schema_parent : Option LysNode) (parent : Option LysNode)
    (options : Options) (e : Errno) : Int × Option LydNode × Errno :=
  match xml with
  | .mk xname xnso xcontent xattr xchild =>
    match xnso with
    | none => (-1, none, some .evalid)   -- LOGVAL(LYE_XML_MISS, ..., "namespace")
    | some xns =>
      -- find schema
      let schema? : Option LysNode :=
        match schema_parent with
        | some sp => xml_data_search_schemanode xname xns sp.child
        | none =>
          match parent with
          | none => rootSchemaSearch ctx xname xns
          | some par => xml_data_search_schemanode xname xns par.child
      match schema? with
      | none =>
        if options.strict ∨ (ly_ctx_get_module_by_ns ctx xns).isSome then
          (-1, none, some .evalid)       -- LOGVAL(LYE_INELEM, ...)
        else
          (0, none, e)                   -- unknown namespace: silently skip
      | some schema =>
        -- check insert attribute and its values
        match (if options.edit then xml_check_edit_attrs schema.userordered xattr
               else .ok ()) with
        | .error _ => (-1, none, some .evalid)
        | .ok () =>
          if ¬ schema.nodetype.instantiable then
            (-1, none, some .eint)       -- LOGINT
          else
            -- linking of the new node into parent/siblings is the list
            -- construction performed by the callers; lyv_data_context
            if ext.data_context_fails schema options then
              (-1, none, some .evalid)
            else
              -- type specific processing
              match (if schema.nodetype = .leaf ∨ schema.nodetype = .leaflist then
                       match xml_get_value ext schema.typ xcontent options with
                       | none => none
                       | some lv => some (some lv)
                     else some none : Option (Option LeafVal)) with
              | none => (-1, none, some .evalid)
              | some lv? =>
                let anyv : List LyxmlElem :=
                  if schema.nodetype = .anyxml ∧ ¬ options.filter then xchild
                  else []
                let dattrs := copyAttrs ctx xattr
                -- process children
                let st :=
                  if schema.nodetype.havechildren ∧ xchild.isEmpty = false then
                    if schema.nodetype = .rpc ∨ schema.nodetype = .notif then
                      xml_parse_children ext ctx xchild schema Options.zero e
                    else
                      xml_parse_children ext ctx xchild schema options e
                  else (0, [], e)
                if st.1 ≠ 0 then (-1, none, st.2.2)
                else
                  let node := LydNode.mk schema dattrs lv? none anyv st.2.1
                  -- ly_errno = 0; lyv_data_content
                  match ext.data_content schema options with
                  | .ok => (0, some node, none)
                  | .hardfail => (-1, none, some .evalid)
                  | .discard => (0, none, none)

/-- Child loop of xml_parse_data lines 369-387: parse each child under
the parent schema, stop with the child's return code on failure, and
collect built children in order. -/
def xml_parse_children (ext : Ext) (ctx : LyCtx) (xmls : List LyxmlElem)
    (parentSchema : LysNode) (options : Options) (e : Errno) :
    Int × List LydNode × Errno :=
  match xmls with
  | [] => (0, [], e)
  | x :: rest =>
    let r := xml_parse_data ext ctx x none (some parentSchema) options e
    if r.1 ≠ 0 then (r.1, [], r.2.2)
    else
      let rs := xml_parse_children ext ctx rest parentSchema options r.2.2
      (rs.1, (match r.2.1 with | some d => d :: rs.2.1 | none => rs.2.1), rs.2.2)
end

/-- Top-level loop of lyd_parse_xml_ lines 427-446: parse each child of
the wrapper root with the given schema parent (none for plain data) and
no data parent; on failure return the nodes built so far (they are the
ones the failure path frees). -/
def lyd_parse_top (ext : Ext) (ctx : LyCtx) (xmls : List LyxmlElem)
    (sparent : Option LysNode) (options : Options) (e : Errno) :
    Int × List LydNode × Errno :=
  match xmls with
  | [] => (0, [], e)
  | x :: rest =>
    let r := xml_parse_data ext ctx x sparent none options e
    if r.1 ≠ 0 then (r.1, [], r.2.2)
    else
      let rs := lyd_parse_top ext ctx rest sparent options r.2.2
      (rs.1, (match r.2.1 with | some d => d :: rs.2.1 | none => rs.2.1), rs.2.2)

/-- Common parse entry (lyd_parse_xml_, lines 412-471).  Returns the
parsed top-level sibling list (none models the NULL return), the list of
top-level trees passed to lyd_free on the failure paths (lines 433-439
and 452-460), and the final errno. -/
def lyd_parse_xml_ (ext : Ext) (ctx : Option LyCtx) (parent : Option LysNode)
    (root : Option LyxmlElem) (options : Options) (e : Errno) :
    Option (List LydNode) × List LydNode × Errno :=
  match ctx, root with
  | none, _ => (none, [], some .einval)  -- LOGERR(LY_EINVAL, "Invalid parameter.")
  | some _, none => (none, [], some .einval)
  | some ctx, some root =>
    let r := lyd_parse_top ext ctx root.child parent options e
    if r.1 ≠ 0 then
      (none, r.2.1, r.2.2)               -- free everything built so far
    else if r.2.1.isEmpty then
      (none, [], some .evalid)           -- LOGERR(LY_EVALID, "Model ... not found.")
    else if ext.resolve_unres_fails then
      (none, r.2.1, some .evalid)        -- leafref/instid check failed: free all
    else
      (some r.2.1, [], r.2.2)

/-- API entry lyd_parse_xml (lines 473-477). -/
def lyd_parse_xml (ext : Ext) (ctx : Option LyCtx) (root : Option LyxmlElem)
    (options : Options) (e : Errno) :
    Option (List LydNode) × List LydNode × Errno :=
  lyd_parse_xml_ ext ctx none root options e

/-- API entry lyd_parse_output_xml (lines 479-488).  The ctx argument
stands for rpc->module->ctx. -/
def lyd_parse_output_xml (ext : Ext) (ctx : LyCtx) (rpc : Option LysNode)
    (root : Option LyxmlElem) (options : Options) (e : Errno) :
    Option (List LydNode) × List LydNode × Errno :=
  match rpc with
  | none => (none, [], some .einval)     -- LOGERR(LY_EINVAL, "Invalid parameter.")
  | some r =>
    if r.nodetype ≠ .rpc then (none, [], some .einval)
    else lyd_parse_xml_ ext (some ctx) (some r) root options e


/-! ## JSON printer (printer_json.c) -/

/-- Effective module name used by the JSON printer for qualified member
names: a submodule (module->type set) prints the name of its belongs-to
module (printer_json.c lines 62-68 and analogues). -/
def LyModRef.effName (m : LyModRef) : String :=
  match m.belongsto with
  | some b => b
  | none => m.name

/-- Modelled from the spec: nscmp (outside the sources) decides whether
two data nodes share namespace scope; they do iff their schema modules
are identical, submodules resolving to their belongs-to module. -/
def nscmpDiffers (a b : LysNode) : Bool :=
  a.module.effName ≠ b.module.effName

/-- Member name of a node in JSON output: qualified with the effective
module name when the node has no parent or the module changes from the
parent (the !node->parent || nscmp(node, node->parent) test). -/
def json_qname (parent : Option LysNode) (sc : LysNode) : String :=
  match parent with
  | none => sc.module.effName ++ ":" ++ sc.name
  | some p =>
    if nscmpDiffers sc p then sc.module.effName ++ ":" ++ sc.name
    else sc.name

/-- Attribute object of a node (json_print_attrs, lines 39-52): each
attribute keyed by name, module-qualified when the attribute's module
differs from the node's schema module (module pointer comparison,
modelled by module-name equality). -/
def json_print_attrs (n : LydNode) : List (String × String) :=
  n.attr.map (fun a =>
    (if a.modName ≠ n.schema.module.name then a.modName ++ ":" ++ a.name
     else a.name, a.value))

/-- Scalar JSON value tokens produced by json_print_leaf lines 75-109. -/
inductive JsonVal where
  | quoted (s : String)   -- "value" (string-kind bases; empty when NULL)
  | raw (s : String)      -- unquoted value_str or null (numeric and bool)
  | nullArr               -- the [null] rendering of EMPTY
  | errVal                -- the "(!error!)" rendering of the default case
  deriving DecidableEq, Repr

/-- Leaf value rendering (the switch of json_print_leaf on
value_type & LY_DATA_TYPE_MASK).  A LEAFREF prints the referenced
leaf's value (leaf->value.leafref, here the lref field); a missing
target is a NULL dereference in C and maps to the error token. -/
def json_print_leaf_value (n : LydNode) : JsonVal :=
  match n with
  | .mk _ _ lv lref _ _ =>
    match lv with
    | none => .errVal
    | some v =>
      match v.value_type with
      | .binary | .str | .bits | .enum | .ident | .inst =>
        .quoted (v.value_str.getD "")
      | .boolean | .dec64 | .int8 | .int16 | .int32 | .int64
      | .uint8 | .uint16 | .uint32 | .uint64 =>
        .raw (v.value_str.getD "null")
      | .leafref =>
        match lref with
        | some t => json_print_leaf_value t
        | none => .errVal
      | .empty => .nullArr
      | _ => .errVal

/-- Structured JSON output events, one constructor per member emission
of the printer.  The sid field records the schema node identity of the
printed schema (the printer itself emits only text; sid is bookkeeping
for the statements below). -/
inductive JsonOut where
  | leaf (name : String) (v : JsonVal)
      (attrs : Option (List (String × String)))
  | container (name : String) (attrs : Option (List (String × String)))
      (children : List JsonOut)
  | anyxmlNull (name : String) (attrs : Option (List (String × String)))
  | nullMember (sid : Nat) (name : String)
  | leafListArr (sid : Nat) (name : String) (vals : List JsonVal)
      (parAttrs : Option (List (Option (List (String × String)))))
  | listArr (sid : Nat) (name : String)
      (elems : List (Option (List (String × String)) × List JsonOut))

/-- The list->child test of json_print_leaf_list line 160 applied to an
arbitrary node variant: the child pointer slot is occupied by value_str
for leaves and leaf-lists and by the anyxml payload for anyxml (the
struct layout comment in tree_data.h), so the flag_empty test reads
whichever field sits there. -/
def lyd_child_slot_null (n : LydNode) : Bool :=
  match n.schema.nodetype with
  | .leaf | .leaflist => match n.leaf with
    | none => true
    | some v => v.value_str.isNone
  | .anyxml => n.anyv.isEmpty
  | _ => n.child.isEmpty

/-- Later sibling instances of the same schema, as gathered by the
skip-scan for (list = list->next; list && list->schema != node->schema;
list = list->next) repeated to exhaustion (lines 211, 241): all later
siblings whose schema pointer equals the node's. -/
def collectSameSchema (sc : LysNode) (l : List LydNode) : List LydNode :=
  l.filter (fun d => d.schema.nid = sc.nid)

/-- Parallel attribute array of leaf-list instances (lines 230-245): an
object per instance with attributes, null per instance without. -/
def instAttrArray (insts : List LydNode) :
    List (Option (List (String × String))) :=
  insts.map (fun i => if i.attr.isEmpty then none
                      else some (json_print_attrs i))

mutual
/-- Sibling walk of json_print_nodes (lines 281-339): before holds the
already processed earlier siblings (the backward prev-ring walk of
lines 307-315 enumerates exactly those, last to first, whence the
reversed scan here); a list or leaf-list node is skipped when its schema
already occurred among them, and otherwise emitted as one array
gathering all later instances.  The default switch case (LOGINT; break)
prints nothing. -/
def json_print_nodes_go (parent : Option LysNode) (before : List LydNode) :
    List LydNode → List JsonOut
  | [] => []
  | node :: rest =>
    match node.schema.nodetype with
    | .rpc | .notif | .container =>
      json_print_container parent node
        :: json_print_nodes_go parent (before ++ [node]) rest
    | .leaf =>
      JsonOut.leaf (json_qname parent node.schema) (json_print_leaf_value node)
          (if node.attr.isEmpty then none else some (json_print_attrs node))
        :: json_print_nodes_go parent (before ++ [node]) rest
    | .leaflist | .list =>
      if before.reverse.any (fun it => it.schema.nid = node.schema.nid) then
        json_print_nodes_go parent (before ++ [node]) rest
      else
        json_print_leaf_list parent node rest
            (node.schema.nodetype = .list)
          :: json_print_nodes_go parent (before ++ [node]) rest
    | .anyxml =>
      JsonOut.anyxmlNull (json_qname parent node.schema)
          (if node.attr.isEmpty then none else some (json_print_attrs node))
        :: json_print_nodes_go parent (before ++ [node]) rest
    | _ =>
      json_print_nodes_go parent (before ++ [node]) rest
  termination_by l => (sizeOf l, 3)

/-- Container / rpc / notification member (json_print_container, lines
125-151): optional leading attribute object and the children walk. -/
def json_print_container (parent : Option LysNode) (node : LydNode) :
    JsonOut :=
  JsonOut.container (json_qname parent node.schema)
    (if node.attr.isEmpty then none else some (json_print_attrs node))
    (json_print_nodes_go (some node.schema) [] node.child)
  termination_by (sizeOf node, 2)
  decreasing_by
    all_goals
      first
      | decreasing_trivial
      | (cases node with
         | mk sc a lv lr av c => simp [LydNode.child]; omega)

/-- List / leaf-list array member (json_print_leaf_list, lines 153-249):
rest is the remaining later siblings of node.  An empty child slot
prints null.  A list prints an array of instance objects, each with an
optional leading attribute object (the C code passes node, the first
instance, to json_print_attrs here).  A leaf-list prints the value
array, followed by a parallel attribute array when some instance has
attributes. -/
def json_print_leaf_list (parent : Option LysNode) (node : LydNode)
    (rest : List LydNode) (is_list : Bool) : JsonOut :=
  if lyd_child_slot_null node then
    JsonOut.nullMember node.schema.nid (json_qname parent node.schema)
  else if is_list then
    JsonOut.listArr node.schema.nid (json_qname parent node.schema)
      ((if node.attr.isEmpty then none else some (json_print_attrs node),
         json_print_nodes_go (some node.schema) [] node.child)
        :: json_print_list_elems node rest)
  else
    JsonOut.leafListArr node.schema.nid (json_qname parent node.schema)
      ((node :: collectSameSchema node.schema rest).map json_print_leaf_value)
      (if (node :: collectSameSchema node.schema rest).any
            (fun i => ¬ i.attr.isEmpty) then
         some (instAttrArray (node :: collectSameSchema node.schema rest))
       else none)
  termination_by (sizeOf node + sizeOf rest, 2)
  decreasing_by
    all_goals
      first
      | decreasing_trivial
      | (cases node with
         | mk sc a lv lr av c => simp [LydNode.child]; omega)

/-- Remaining instance objects of a list array: the while loop of lines
188-215 after its first iteration, including the skip-scan over later
siblings of other schemas; the attribute object is printed from node
(the first instance), as the C code does. -/
def json_print_list_elems (node : LydNode) :
    List LydNode → List (Option (List (String × String)) × List JsonOut)
  | [] => []
  | i :: is =>
    if i.schema.nid = node.schema.nid then
      (if i.attr.isEmpty then none else some (json_print_attrs node),
        json_print_nodes_go (some i.schema) [] i.child)
        :: json_print_list_elems node is
    else json_print_list_elems node is
  termination_by l => (sizeOf node + sizeOf l, 1)
  decreasing_by
    all_goals
      first
      | decreasing_trivial
      | (cases node with
         | mk sc a lv lr av c => simp [LydNode.child]; omega)
end

/-- Top-level sibling walk (json_print_nodes / json_print_data). -/
def json_print_nodes (parent : Option LysNode) (l : List LydNode) :
    List JsonOut :=
  json_print_nodes_go parent [] l


/-- True for the output events emitted by json_print_leaf_list for the
schema node with identity sid: its value array, instance-object array,
or the null member of the empty (filter) case. -/
def jsonListEmission (sid : Nat) : JsonOut → Bool
  | .leafListArr s _ _ _ => s = sid
  | .listArr s _ _ => s = sid
  | .nullMember s _ => s = sid
  | _ => false

/-- True for the data nodes the claim aggregates: list or leaf-list
instances of the schema with identity sid. -/
def listInstOf (sid : Nat) (d : LydNode) : Bool :=
  (d.schema.nodetype = .leaflist ∨ d.schema.nodetype = .list)
    && d.schema.nid = sid

/-- Sibling walk as the claim states it, written from the specification:
processing left to right with the set of already seen schema identities,
a list or leaf-list node whose schema already occurred emits nothing,
and the first instance emits the single array gathering every later
sibling instance of that schema; other nodes emit their member.  The
payload constructions are shared with the printer. -/
def json_walk_claim (parent : Option LysNode) (seen : List Nat) :
    List LydNode → List JsonOut
  | [] => []
  | node :: rest =>
    match node.schema.nodetype with
    | .rpc | .notif | .container =>
      json_print_container parent node
        :: json_walk_claim parent (seen ++ [node.schema.nid]) rest
    | .leaf =>
      JsonOut.leaf (json_qname parent node.schema) (json_print_leaf_value node)
          (if node.attr.isEmpty then none else some (json_print_attrs node))
        :: json_walk_claim parent (seen ++ [node.schema.nid]) rest
    | .leaflist | .list =>
      if node.schema.nid ∈ seen then
        json_walk_claim parent (seen ++ [node.schema.nid]) rest
      else
        json_print_leaf_list parent node rest (node.schema.nodetype = .list)
          :: json_walk_claim parent (seen ++ [node.schema.nid]) rest
    | .anyxml =>
      JsonOut.anyxmlNull (json_qname parent node.schema)
          (if node.attr.isEmpty then none else some (json_print_attrs node))
        :: json_walk_claim parent (seen ++ [node.schema.nid]) rest
    | _ =>
      json_walk_claim parent (seen ++ [node.schema.nid]) rest


/-- True for a leaf-list value array followed by a parallel attribute
array (the only emission shape carrying one). -/
def hasParallelAttrArray : JsonOut → Bool
  | .leafListArr _ _ _ (some _) => true
  | _ => false

/-- Sample data for the printer witnesses: module m with a string
leaf-list ll (schema identity 10), a string leaf y (11) and a list L
(20). -/
def llSchemaSample : LysNode :=
  .mk 10 .leaflist "ll" ⟨"m", "urn:m", none⟩ true (LysType.mk .str []) []

def leafYSchemaSample : LysNode :=
  .mk 11 .leaf "y" ⟨"m", "urn:m", none⟩ false (LysType.mk .str []) []

def listSchemaSample : LysNode :=
  .mk 20 .list "L" ⟨"m", "urn:m", none⟩ false (LysType.mk .der []) []

def llInst1 : LydNode := .mk llSchemaSample [] (some ⟨some "a", .str⟩) none [] []

def leafYInst : LydNode :=
  .mk leafYSchemaSample [] (some ⟨some "yy", .str⟩) none [] []

def llInst2 : LydNode :=
  .mk llSchemaSample [⟨"m", "at", "1"⟩] (some ⟨some "b", .str⟩) none [] []

/-- Sample sibling level: two leaf-list instances separated by a leaf. -/
def sampleSiblings : List LydNode := [llInst1, leafYInst, llInst2]

def leafChildInst : LydNode :=
  .mk leafYSchemaSample [] (some ⟨some "v", .str⟩) none [] []

/-- Sample list instance carrying an attribute and one child leaf. -/
def listInstSample : LydNode :=
  .mk listSchemaSample [⟨"m", "a", "1"⟩] none none [] [leafChildInst]

/-- Sample oracle assignment used by the concrete witnesses below:
parsing succeeds exactly for string-based types and for the text 7, and
the xml2json translation knows exactly the expression p:id1 (prefix p
bound to the namespace of module m). -/
def extSample : Ext where
  parse_value := fun t s _ => t.base = .str || s = some "7" || (t.base = .ident && s = some "m:id1")
  x2j := fun s => if s = some "p:id1" then some "m:id1" else none
  data_context_fails := fun _ _ => false
  data_content := fun _ _ => .ok
  resolve_unres_fails := false


/-- Sample pointer state for the ring witness: the two-node ring 1, 2. -/
def ringSample : RingState where
  next := fun x => if x = 1 then some 2 else none
  prev := fun x => if x = 1 then 2 else if x = 2 then 1 else 0

/-- Sample schema context: one module m with namespace urn:m holding one
string leaf x. -/
def leafSchemaSample : LysNode :=
  .mk 1 .leaf "x" ⟨"m", "urn:m", none⟩ false (LysType.mk .str []) []

def ctxSample : LyCtx := ⟨[⟨"m", "urn:m", [leafSchemaSample]⟩]⟩

/-- Sample document whose root element namespace urn:x belongs to no
loaded module. -/
def elemUnknownNs : LyxmlElem := .mk "x" (some "urn:x") none [] []

def rootUnknownNs : LyxmlElem := .mk "wrap" none none [] [elemUnknownNs]

/-- Sample well-formed document: one leaf x with value v. -/
def elemLeafSample : LyxmlElem := .mk "x" (some "urn:m") (some "v") [] []

def rootLeafSample : LyxmlElem := .mk "wrap" none none [] [elemLeafSample]

/-- Sample oracles with a failing deferred-resolution pass. -/
def extFail : Ext :=
  { extSample with resolve_unres_fails := true }

/-- Helper: the resolver equals the first accepted node of the flattened
schema forest. -/
theorem xml_data_search_eq_find (xname xns : String) (l : List LysNode) :
    xml_data_search_schemanode xname xns l
      = (flattenSchema l).find? (schemaAccept xname xns) := by
  induction l using xml_data_search_schemanode.induct xname xns with
  | case1 => simp [xml_data_search_schemanode, flattenSchema]
  | case2 n rest hg ih =>
    simp [xml_data_search_schemanode, flattenSchema, hg, ih]
  | case3 n rest hg ht aux haux ih =>
    rw [xml_data_search_schemanode, flattenSchema]
    simp [hg, ht, haux, List.find?_append, ← ih, haux]
  | case4 n rest hg ht haux ihc ih =>
    rw [xml_data_search_schemanode, flattenSchema]
    simp [hg, ht, haux, List.find?_append, ← ihc, haux, ih]
  | case5 n rest hg ht hacc =>
    rw [xml_data_search_schemanode, flattenSchema]
    simp [hg, ht, hacc, List.find?_cons, schemaAccept, hacc.1, hacc.2]
  | case6 n rest hg ht hacc ih =>
    rw [xml_data_search_schemanode, flattenSchema]
    simp [hg, ht, hacc, List.find?_cons, schemaAccept, ih]

/-- Helper: the union decoding loop returns exactly the first accepting
member, carrying that member's base as value_type and the member's kept
text as value_str. -/
theorem xml_get_value_union_eq_find (ext : Ext) (r : Bool) (orig : Option String)
    (ms : List LysType) :
    xml_get_value_union ext r orig ms
      = (ms.find? (unionMemberAccepts ext r orig)).map
          (fun t => ⟨unionMemberValue ext orig t, t.base⟩) := by
  induction ms with
  | nil => rfl
  | cons t rest ih =>
    rw [xml_get_value_union]
    by_cases hp : t.base.pathbearing
    · simp only [hp, if_true]
      cases hx : ext.x2j orig with
      | none => simp [List.find?_cons, unionMemberAccepts, hp, hx, ih]
      | some s =>
        by_cases hv : ext.parse_value t (some s) r
        · simp [List.find?_cons, unionMemberAccepts, unionMemberValue, hp, hx, hv]
        · simp [List.find?_cons, unionMemberAccepts, hp, hx, hv, ih]
    · simp only [hp]
      by_cases hv : ext.parse_value t orig r
      · simp [List.find?_cons, unionMemberAccepts, unionMemberValue, hp, hv]
      · simp [List.find?_cons, unionMemberAccepts, hp, hv, ih]

/-- C1: for a leaf or leaf-list whose schema type is a union, the decoder
tries the member subtypes in declaration order and accepts with the first
subtype that successfully parses the textual value, setting the runtime
value_type to that subtype's base; for IDENTITYREF and
INSTANCE-IDENTIFIER subtypes the text is first translated to JSON
module-name form in silent mode and a translation failure skips only that
subtype; if no subtype accepts, decoding of the leaf fails (none). -/
theorem c1_union_first_accepting_subtype (ext : Ext) (ms : List LysType)
    (content : Option String) (options : Options)
    (h : ¬(options.filter ∧ content = none)) :
    xml_get_value ext (LysType.mk .uni ms) content options
      = (ms.find? (unionMemberAccepts ext
            (!(options.filter || options.edit || options.get || options.getconfig))
            content)).map
          (fun t => ⟨unionMemberValue ext content t, t.base⟩) := by
  rw [xml_get_value, if_neg h]
  simp only [LysType.base, LysType.uni, LyDataType.pathbearing]
  exact xml_get_value_union_eq_find ..

/-- Witness for C1 at a concrete union with members int8 and string and
the text 7: the first accepting member is int8 and it wins. -/
theorem c1_union_first_accepting_subtype_witness :
    xml_get_value extSample (LysType.mk .uni [LysType.mk .int8 [], LysType.mk .str []])
        (some "7") Options.zero
      = ([LysType.mk .int8 [], LysType.mk .str []].find? (unionMemberAccepts extSample
            (!(Options.zero.filter || Options.zero.edit || Options.zero.get
                || Options.zero.getconfig))
            (some "7"))).map
          (fun t => ⟨unionMemberValue extSample (some "7") t, t.base⟩) :=
  c1_union_first_accepting_subtype extSample _ _ _ (by simp [Options.zero])

/-- Helper: a winning union member that is path-bearing leaves the
translated JSON text in value_str. -/
theorem xml_get_value_union_pathbearing_value (ext : Ext) (r : Bool)
    (orig : Option String) (ms : List LysType) (lv : LeafVal)
    (h : xml_get_value_union ext r orig ms = some lv)
    (hty : lv.value_type.pathbearing = true) :
    lv.value_str = ext.x2j orig := by
  rw [xml_get_value_union_eq_find] at h
  cases hf : ms.find? (unionMemberAccepts ext r orig) with
  | none => simp [hf] at h
  | some t =>
    simp only [hf, Option.map_some] at h
    have ha := List.find?_some hf
    cases h
    simp only [LeafVal.value_type] at hty
    simp [unionMemberValue, hty]

/-- C3: a successfully decoded leaf value with a textual payload whose
runtime value_type is IDENTITYREF or INSTANCE-IDENTIFIER (directly or as
the winning union subtype) carries in value_str the JSON-canonical form,
namely the xml2json translation of the XML text. -/
theorem c3_value_str_is_json_form (ext : Ext) (stype : LysType)
    (content : Option String) (options : Options) (lv : LeafVal) (s : String)
    (hc : content = some s)
    (h : xml_get_value ext stype content options = some lv)
    (hty : lv.value_type.pathbearing = true) :
    lv.value_str = ext.x2j content := by
  subst hc
  rw [xml_get_value] at h
  simp only [reduceCtorEq, and_false, if_false] at h
  by_cases hp : stype.base.pathbearing
  · simp only [hp, if_true] at h
    cases hx : ext.x2j (some s) with
    | none => simp [hx] at h
    | some j =>
      simp only [hx] at h
      have hb : ¬ stype.base = .uni := by
        intro he; rw [he] at hp; simp [LyDataType.pathbearing] at hp
      simp only [hb, if_false] at h
      by_cases hv : ext.parse_value stype (some j) (!(options.filter || options.edit || options.get || options.getconfig))
      · simp only [hv, if_true] at h
        cases h
        simp [hx]
      · rw [if_neg hv] at h
        simp at h
  · simp only [hp, Bool.false_eq_true, if_false] at h
    by_cases hb : stype.base = .uni
    · simp only [hb, if_true] at h
      exact xml_get_value_union_pathbearing_value ext _ _ _ lv h hty
    · simp only [hb, if_false] at h
      by_cases hv : ext.parse_value stype (some s) (!(options.filter || options.edit || options.get || options.getconfig))
      · simp only [hv, if_true] at h
        cases h
        simp only [LeafVal.value_type] at hty
        rw [hty] at hp
        simp at hp
      · rw [if_neg hv] at h
        simp at h

/-- Witness for C3 at a concrete identityref leaf: input text p:id1 is
stored as the translation m:id1. -/
theorem c3_value_str_is_json_form_witness :
    LeafVal.value_str ⟨some "m:id1", .ident⟩ = extSample.x2j (some "p:id1") :=
  c3_value_str_is_json_form extSample (LysType.mk .ident []) (some "p:id1")
    Options.zero ⟨some "m:id1", .ident⟩ "p:id1" rfl (by decide) rfl

/-- C2: the schema resolver iterates the sibling list, skips GROUPING,
descends through CHOICE, CASE, USES, INPUT and OUTPUT returning the first
hit, and accepts a concrete schema node iff its name equals the element's
local name and its module's namespace equals the element's namespace URI
(identity of interned strings); with no accepted node it returns none.
Stated as: the resolver is exactly the first accepted node of the
flattened schema forest, and in particular returns none iff no flattened
node satisfies the name and namespace equalities. -/
theorem c2_schemanode_resolution (xname xns : String) (l : List LysNode) :
    xml_data_search_schemanode xname xns l
        = (flattenSchema l).find? (schemaAccept xname xns)
    ∧ (xml_data_search_schemanode xname xns l = none
        ↔ ∀ n ∈ flattenSchema l, ¬(n.name = xname ∧ n.module.ns = xns)) := by
  refine ⟨xml_data_search_eq_find .., ?_⟩
  rw [xml_data_search_eq_find, List.find?_eq_none]
  simp [schemaAccept]

/-- Helper: the insert loop only looks at the YANG insert attributes. -/
theorem xml_edit_insert_loop_filter (uo : Bool) (i : Nat) (l : List LyxmlAttr) :
    xml_edit_insert_loop uo i l
      = xml_edit_insert_loop uo i (l.filter (isYangAttr "insert")) := by
  induction l generalizing i with
  | nil => rfl
  | cons a rest ih =>
    by_cases ha : isYangAttr "insert" a
    · rw [List.filter_cons_of_pos ha]
      rw [xml_edit_insert_loop, xml_edit_insert_loop]
      simp only [ha, not_true_eq_false, if_false]
      split
      · rfl
      · split
        · rfl
        · split
          · exact ih 1
          · split
            · exact ih 2
            · rfl
    · rw [List.filter_cons_of_neg (by simpa using ha)]
      rw [xml_edit_insert_loop]
      simp only [ha, not_false_eq_true, if_true]
      exact ih i

/-- Helper: the value loop only looks at the YANG value attributes. -/
theorem xml_edit_value_loop_filter (i : Nat) (l : List LyxmlAttr) :
    xml_edit_value_loop i l
      = xml_edit_value_loop i (l.filter (isYangAttr "value")) := by
  induction l generalizing i with
  | nil => rfl
  | cons a rest ih =>
    by_cases ha : isYangAttr "value" a
    · rw [List.filter_cons_of_pos ha]
      rw [xml_edit_value_loop, xml_edit_value_loop]
      simp only [ha, not_true_eq_false, if_false]
      split
      · rfl
      · exact ih (i + 1)
    · rw [List.filter_cons_of_neg (by simpa using ha)]
      rw [xml_edit_value_loop]
      simp only [ha, not_false_eq_true, if_true]
      exact ih i

/-- Helper: value loop over a list of value attributes only. -/
theorem xml_edit_value_loop_all (i : Nat) (V : List LyxmlAttr)
    (hV : ∀ a ∈ V, isYangAttr "value" a = true) :
    xml_edit_value_loop i V
      = if V = [] then .ok i
        else if i < 2 then .error .inattrValue
        else .ok (i + V.length) := by
  induction V generalizing i with
  | nil => rfl
  | cons a t ih =>
    have ha := hV a (List.mem_cons_self ..)
    rw [xml_edit_value_loop]
    simp only [ha, not_true_eq_false, if_false]
    rw [if_neg (List.cons_ne_nil a t)]
    by_cases hi : i < 2
    · simp [hi]
    · simp only [if_neg hi]
      rw [ih (i + 1) (fun a h => hV a (List.mem_cons_of_mem _ h))]
      have h2 : ¬ (i + 1 < 2) := by omega
      by_cases he : t = []
      · subst he
        simp
      · simp only [he, if_false, h2, List.length_cons]
        congr 1
        omega

/-- Helper: the edit check only depends on the YANG insert and value
attributes of the element. -/
theorem xml_check_edit_attrs_eq_core (uo : Bool) (attrs : List LyxmlAttr) :
    xml_check_edit_attrs uo attrs
      = xml_check_edit_core uo (attrs.filter (isYangAttr "insert"))
          (attrs.filter (isYangAttr "value")) := by
  rw [xml_check_edit_attrs, xml_check_edit_core,
    ← xml_edit_insert_loop_filter uo 0 attrs]
  cases hr : xml_edit_insert_loop uo 0 attrs with
  | error e => rfl
  | ok i => simp only [← xml_edit_value_loop_filter]

/-- Helper: success of the edit check over separated attribute lists is
exactly the edit grammar. -/
theorem xml_check_edit_core_iff (uo : Bool) (I V : List LyxmlAttr)
    (hI : ∀ a ∈ I, isYangAttr "insert" a = true)
    (hV : ∀ a ∈ V, isYangAttr "value" a = true) :
    xml_check_edit_core uo I V = .ok () ↔ editGrammarCore uo I V := by
  cases I with
  | nil =>
    rw [xml_check_edit_core]
    show (match xml_edit_value_loop 0 V with
          | .error e => (.error e : Except EditAttrErr Unit)
          | .ok i => if i = 2 then .error .missattrValue
              else if i > 3 then .error .toomanyValue
              else .ok ()) = .ok () ↔ _
    rw [xml_edit_value_loop_all 0 V hV]
    by_cases hv : V = []
    · simp [hv, editGrammarCore]
    · simp [hv, editGrammarCore]
  | cons a t =>
    have ha := hI a (List.mem_cons_self ..)
    rw [xml_check_edit_core, xml_edit_insert_loop]
    simp only [ha, not_true_eq_false, if_false]
    by_cases huo : uo
    · simp only [huo, not_true_eq_false, if_false, ne_eq, not_true_eq_false,
        OfNat.zero_ne_ofNat, ite_false]
      by_cases h1 : a.value = "first" ∨ a.value = "last"
      · simp only [h1, if_true]
        cases t with
        | nil =>
          rw [xml_edit_insert_loop]
          show (match xml_edit_value_loop 1 V with
                | .error e => (.error e : Except EditAttrErr Unit)
                | .ok i => if i = 2 then .error .missattrValue
                    else if i > 3 then .error .toomanyValue
                    else .ok ()) = .ok () ↔ _
          rw [xml_edit_value_loop_all 1 V hV]
          by_cases hv : V = []
          · simp only [hv, if_true]
            constructor
            · intro _
              refine ⟨?_, by simp, ?_, fun _ => rfl⟩
              · intro x hx
                rcases List.mem_singleton.mp hx with rfl
                exact ⟨rfl, by rcases h1 with h | h <;> simp [insertArgOk, h]⟩
              · intro hpos
                rcases hpos with ⟨x, hx, hp⟩
                rcases List.mem_singleton.mp hx with rfl
                rcases h1 with h | h <;> rcases hp with hq | hq <;>
                  simp [h] at hq
            · intro _
              rfl
          · simp only [hv, if_false]
            constructor
            · intro hh
              simp at hh
            · rintro ⟨-, -, -, h4⟩
              exfalso
              refine hv (h4 ?_)
              rintro ⟨x, hx, hp⟩
              rcases List.mem_singleton.mp hx with rfl
              rcases h1 with h | h <;> rcases hp with hq | hq <;> simp [h] at hq
        | cons b t2 =>
          have hb := hI b (List.mem_cons_of_mem _ (List.mem_cons_self ..))
          rw [xml_edit_insert_loop]
          simp only [hb, not_true_eq_false, if_false, huo, one_ne_zero,
            not_false_eq_true, if_true]
          constructor
          · intro hh
            simp at hh
          · rintro ⟨-, h2, -, -⟩
            simp at h2
      · by_cases h2 : a.value = "before" ∨ a.value = "after"
        · simp only [h1, if_false, h2, if_true]
          cases t with
          | nil =>
            rw [xml_edit_insert_loop]
            show (match xml_edit_value_loop 2 V with
                  | .error e => (.error e : Except EditAttrErr Unit)
                  | .ok i => if i = 2 then .error .missattrValue
                      else if i > 3 then .error .toomanyValue
                      else .ok ()) = .ok () ↔ _
            rw [xml_edit_value_loop_all 2 V hV]
            by_cases hv : V = []
            · simp only [hv, if_true]
              constructor
              · intro hh
                simp at hh
              · rintro ⟨-, -, h3, -⟩
                exact absurd (h3 ⟨a, List.mem_singleton.mpr rfl, h2⟩) (by simp)
            · simp only [hv, if_false]
              have h22 : ¬ (2 : Nat) < 2 := by omega
              simp only [h22, if_false]
              constructor
              · intro hh
                refine ⟨?_, by simp, fun _ => ?_, fun hn => absurd ⟨a, List.mem_singleton.mpr rfl, h2⟩ hn⟩
                · intro x hx
                  rcases List.mem_singleton.mp hx with rfl
                  exact ⟨rfl, by rcases h2 with h | h <;> simp [insertArgOk, h]⟩
                · by_cases hl2 : 2 + V.length = 2
                  · simp [hl2] at hh
                  · simp only [hl2, if_false] at hh
                    by_cases hl3 : 2 + V.length > 3
                    · simp [hl3] at hh
                    · omega
              · rintro ⟨-, -, h3, -⟩
                have hv1 : V.length = 1 := h3 ⟨a, List.mem_singleton.mpr rfl, h2⟩
                simp [hv1]
          | cons b t2 =>
            have hb := hI b (List.mem_cons_of_mem _ (List.mem_cons_self ..))
            rw [xml_edit_insert_loop]
            simp only [hb, not_true_eq_false, if_false, huo, OfNat.ofNat_ne_zero,
              not_false_eq_true, if_true]
            constructor
            · intro hh
              simp at hh
            · rintro ⟨-, h2, -, -⟩
              simp at h2
        · simp only [h1, if_false, h2, if_false]
          constructor
          · intro hh
            simp at hh
          · rintro ⟨h1', -, -, -⟩
            rcases h1' a (List.mem_cons_self ..) with ⟨-, harg⟩
            rcases harg with h | h | h | h
            · exact absurd (Or.inl h) h1
            · exact absurd (Or.inr h) h1
            · exact absurd (Or.inl h) h2
            · exact absurd (Or.inr h) h2
    · simp only [huo, not_false_eq_true, if_true]
      constructor
      · intro hh
        simp at hh
      · rintro ⟨h1', -, -, -⟩
        rcases h1' a (List.mem_cons_self ..) with ⟨h, -⟩
        simp at h

/-- C5: under EDIT options the edit-attribute grammar is enforced: more
than one YANG insert attribute is an error; an insert attribute on a
schema node that is not ordered-by user is an error; the insert argument
must be first, last, before or after; a value attribute is an error
unless insert is before or after, in which case exactly one value
attribute is required.  Stated as: the check succeeds iff the grammar
holds. -/
theorem c5_edit_attribute_grammar (uo : Bool) (attrs : List LyxmlAttr) :
    xml_check_edit_attrs uo attrs = .ok () ↔ editGrammarOk uo attrs := by
  rw [xml_check_edit_attrs_eq_core, editGrammarOk]
  exact xml_check_edit_core_iff uo _ _
    (fun a ha => (List.mem_filter.mp ha).2)
    (fun a ha => (List.mem_filter.mp ha).2)

/-- Helper: the backward walk follows a prev chain r (first element d)
and stops at the first node whose prev equals p; when only the final
node of r qualifies and the fuel covers r, it returns that final node. -/
theorem lyd_fix_last_walk_spec (pm : Nat → Nat) (p : Nat) :
    ∀ (r : List Nat) (fuel : Nat) (d : Nat),
      r.head? = some d →
      r.Chain' (fun a b => pm a = b) →
      (∀ x, r.getLast? = some x → pm x = p) →
      (∀ x ∈ r.dropLast, pm x ≠ p) →
      r.length ≤ fuel + 1 →
      ∀ g, r.getLast? = some g → lyd_fix_last_walk pm p fuel d = g := by
  intro r
  induction r with
  | nil => intro fuel d hd; simp at hd
  | cons a t ih =>
    intro fuel d hd hc hlast hmid hlen g hg
    have had : d = a := by simpa using hd.symm
    subst had
    cases t with
    | nil =>
      have hag : g = d := by simpa using hg.symm
      subst hag
      cases fuel with
      | zero => rfl
      | succ f =>
        rw [lyd_fix_last_walk, if_pos (hlast g (by simp))]
    | cons b t2 =>
      cases fuel with
      | zero => simp at hlen
      | succ f =>
        have hdb : pm d = b := (List.chain'_cons.mp hc).1
        have hdp : pm d ≠ p := by
          refine hmid d ?_
          have hdl : (d :: b :: t2).dropLast = d :: (b :: t2).dropLast := by simp
          rw [hdl]
          exact List.mem_cons_self ..
        rw [lyd_fix_last_walk, if_neg hdp, hdb]
        refine ih f b rfl (List.chain'_cons.mp hc).2 ?_ ?_ ?_ g ?_
        · intro x hx
          exact hlast x (by simpa using hx)
        · intro x hx
          refine hmid x ?_
          have hdl : (d :: b :: t2).dropLast = d :: (b :: t2).dropLast := by simp
          rw [hdl]
          exact List.mem_cons_of_mem _ hx
        · simpa using Nat.le_of_succ_le_succ hlen
        · simpa using hg

/-- Helper: a chain may be transported along a relation implication that
holds on the members of the list. -/
theorem chain'_imp_mem {R S : Nat → Nat → Prop} :
    ∀ (l : List Nat), (∀ a ∈ l, ∀ b ∈ l, R a b → S a b) →
      l.Chain' R → l.Chain' S := by
  intro l
  induction l with
  | nil => intro _ _; exact List.chain'_nil
  | cons a t ih =>
    intro h hc
    cases t with
    | nil => exact List.chain'_singleton a
    | cons b t2 =>
      rw [List.chain'_cons] at hc ⊢
      refine ⟨h a (List.mem_cons_self ..) b
          (List.mem_cons_of_mem _ (List.mem_cons_self ..)) hc.1, ?_⟩
      exact ih (fun x hx y hy => h x (List.mem_cons_of_mem _ hx) y
        (List.mem_cons_of_mem _ hy)) hc.2

/-- Helper: in a valid chain with distinct nodes, no node of the tail
has its prev pointing at the last node. -/
theorem tail_prev_ne_last (st : RingState) :
    ∀ (l : List Nat),
      l.Chain' (fun a b => st.next a = some b ∧ st.prev b = a) →
      l.Nodup →
      ∀ x ∈ l.tail, ∀ p, l.getLast? = some p → st.prev x ≠ p := by
  intro l
  induction l with
  | nil => intro _ _ x hx; simp at hx
  | cons a t ih =>
    intro hc hnd x hx p hp
    cases t with
    | nil => simp at hx
    | cons b t2 =>
      simp only [List.tail_cons] at hx
      have hp' : (b :: t2).getLast? = some p := by simpa using hp
      rcases List.mem_cons.mp hx with hxb | hx2
      · have hprev : st.prev x = a := by
          rw [hxb]; exact (List.chain'_cons.mp hc).1.2
        rw [hprev]
        intro he
        apply (List.nodup_cons.mp hnd).1
        rw [he]
        rcases List.mem_getLast?_eq_getLast (show p ∈ (b :: t2).getLast? from hp') with ⟨hne, hpe⟩
        rw [hpe]
        exact List.getLast_mem hne
      · exact ih (List.chain'_cons.mp hc).2 (List.nodup_cons.mp hnd).2 x hx2 p hp'

/-- C7: after every link-in performed by the tree builder the sibling
ring stays valid: linking a fresh node after the current last sibling of
a valid ring yields the valid ring of the extended sibling list (so the
first sibling's prev points at the new last, and every node with a
non-NULL next is back-linked), and linking a node with no previous
sibling yields the valid one-element ring whose prev points at itself. -/
theorem c7_link_in_preserves_sibling_ring
    (st : RingState) (l : List Nat) (result p fuel : Nat)
    (hring : IsRing st l) (hlast : l.getLast? = some p)
    (hfresh : result ∉ l) (hnext : st.next result = none)
    (hfuel : l.length ≤ fuel + 1) :
    IsRing (lyd_link_sibling st result (some p) fuel) (l ++ [result])
    ∧ ∀ (st2 : RingState) (r : Nat), st2.next r = none →
        IsRing (lyd_link_sibling st2 r none fuel) [r] := by
  obtain ⟨hne, hnd, hch, hln, hhp⟩ := hring
  constructor
  · cases l with
    | nil => simp at hlast
    | cons hd tl =>
      have hhd : hd ≠ result := fun he => hfresh (he ▸ List.mem_cons_self ..)
      have hpmem : p ∈ hd :: tl := by
        rcases List.mem_getLast?_eq_getLast (show p ∈ (hd :: tl).getLast? from hlast)
          with ⟨hne2, hpe⟩
        rw [hpe]
        exact List.getLast_mem hne2
      have hpr : p ≠ result := fun he => hfresh (he ▸ hpmem)
      -- the backward walk returns the first sibling
      have hwalk : lyd_fix_last_walk (updNat st.prev result p) p fuel p = hd := by
        refine lyd_fix_last_walk_spec (updNat st.prev result p) p
          ((hd :: tl).reverse) fuel p ?_ ?_ ?_ ?_ ?_ hd ?_
        · rw [List.head?_reverse]; exact hlast
        · rw [List.chain'_reverse]
          refine chain'_imp_mem _ ?_ hch
          intro a ha b hb hR
          show updNat st.prev result p b = a
          have hbr : b ≠ result := fun he => hfresh (he ▸ hb)
          simp only [updNat, hbr, if_false]
          exact hR.2
        · intro x hx
          rw [List.getLast?_reverse] at hx
          have hxhd : x = hd := by simpa using hx.symm
          subst hxhd
          have hxr : x ≠ result := fun he => hfresh (he ▸ List.mem_cons_self ..)
          simp only [updNat, hxr, if_false]
          exact hhp x p rfl hlast
        · intro x hx
          have hrev : (hd :: tl).reverse = tl.reverse ++ [hd] := by simp
          rw [hrev, List.dropLast_concat] at hx
          have hxl : x ∈ tl := List.mem_reverse.mp hx
          have hxr : x ≠ result := fun he =>
            hfresh (he ▸ List.mem_cons_of_mem _ hxl)
          show updNat st.prev result p x ≠ p
          simp only [updNat, hxr, if_false]
          exact tail_prev_ne_last st (hd :: tl) hch hnd x hxl p hlast
        · simpa using hfuel
        · rw [List.getLast?_reverse]
          rfl
      rw [lyd_link_sibling]
      simp only [hwalk]
      constructor
      · simp
      · simp only [List.nodup_append]
        refine ⟨hnd, by simp, ?_⟩
        intro x hx hmem
        rw [List.mem_singleton] at hmem
        exact hfresh (hmem ▸ hx)
      · rw [List.chain'_append]
        refine ⟨?_, List.chain'_singleton _, ?_⟩
        · refine chain'_imp_mem _ ?_ hch
          intro a ha b hb hR
          have hap : a ≠ p := by
            intro he
            subst he
            rw [hln a hlast] at hR
            exact Option.noConfusion hR.1
          have hbhd : b ≠ hd := by
            intro he
            subst he
            have hap2 : a = p := by
              have := hhp b p rfl hlast
              rw [hR.2] at this
              exact this
            exact hap hap2
          have hbr : b ≠ result := fun he => hfresh (he ▸ hb)
          constructor
          · show updNat st.next p (some result) a = some b
            simp only [updNat, hap, if_false]
            exact hR.1
          · show updNat (updNat st.prev result p) hd result b = a
            simp only [updNat, hbhd, hbr, if_false]
            exact hR.2
        · intro x hx y hy
          have hxp : x = p := by
            rw [hlast] at hx
            simpa using hx.symm
          have hyr : y = result := by simpa using hy.symm
          subst hxp
          subst hyr
          constructor
          · show updNat st.next x (some y) x = some y
            simp [updNat]
          · show updNat (updNat st.prev y x) hd y y = x
            have hyhd : y ≠ hd := fun he => hfresh (he ▸ List.mem_cons_self ..)
            simp [updNat, hyhd]
      · intro x hx
        rw [List.getLast?_concat] at hx
        have hxr : x = result := by simpa using hx.symm
        subst hxr
        show updNat st.next p (some x) x = none
        have hxp : x ≠ p := fun he => hfresh (he ▸ hpmem)
        simp only [updNat, hxp, if_false]
        exact hnext
      · intro x y hx hy
        have hxhd : x = hd := by simpa using hx.symm
        rw [List.getLast?_concat] at hy
        have hyr : y = result := by simpa using hy.symm
        rw [hxhd, hyr]
        show updNat (updNat st.prev result p) hd result hd = result
        simp [updNat]
  · intro st2 r hr
    rw [lyd_link_sibling]
    constructor
    · simp
    · simp
    · exact List.chain'_singleton r
    · intro x hx
      have hxr : x = r := by simpa using hx.symm
      subst hxr
      exact hr
    · intro x y hx hy
      have hxr : x = r := by simpa using hx.symm
      have hyr : y = r := by simpa using hy.symm
      rw [hxr, hyr]
      show updNat st2.prev r r r = r
      simp [updNat]

/-- Counterexample to C4: with options 0 on a document whose root element
namespace urn:x belongs to no loaded module, lyd_parse_xml_ returns NULL
and the error slot IS set (LY_EVALID from the final "Model ... not
found" check at line 449), contradicting the claim that no error code is
recorded. -/
theorem c4_lax_unknown_ns_counterexample :
    lyd_parse_xml_ extSample (some ctxSample) none (some rootUnknownNs)
        Options.zero none
      = (none, [], some .evalid)
    ∧ (lyd_parse_xml_ extSample (some ctxSample) none (some rootUnknownNs)
        Options.zero none).2.2 ≠ none := by
  constructor
  · rfl
  · intro h
    rw [show (lyd_parse_xml_ extSample (some ctxSample) none (some rootUnknownNs)
        Options.zero none).2.2 = some .evalid from rfl] at h
    exact Option.noConfusion h

/-- C4 as amended: in lax mode the unknown-namespace element itself is
skipped silently (xml_parse_data returns 0, no node, errno untouched),
but when the whole document consists of that element the final
empty-result check of lyd_parse_xml_ records LY_EVALID and NULL is
returned, so the error flag ends up set. -/
theorem c4_lax_unknown_ns_amended (ext : Ext) (ctx : LyCtx)
    (el root : LyxmlElem) (xns : String) (options : Options) (e : Errno)
    (hns : el.ns = some xns)
    (hmod : ly_ctx_get_module_by_ns ctx xns = none)
    (hstrict : options.strict = false)
    (hroot : root.child = [el]) :
    xml_parse_data ext ctx el none none options e = (0, none, e)
    ∧ lyd_parse_xml_ ext (some ctx) none (some root) options e
        = (none, [], some .evalid) := by
  have hskip : xml_parse_data ext ctx el none none options e = (0, none, e) := by
    cases el with
    | mk n nso c a ch =>
      simp only [LyxmlElem.ns] at hns
      subst hns
      rw [xml_parse_data]
      have hroot2 : rootSchemaSearch ctx n xns = none := by
        rw [rootSchemaSearch]
        rw [ly_ctx_get_module_by_ns] at hmod
        rw [hmod]
      rw [hroot2]
      simp [hstrict, hmod]
  refine ⟨hskip, ?_⟩
  cases root with
  | mk rn rns rc ra rch =>
    simp only [LyxmlElem.child] at hroot
    subst hroot
    rw [lyd_parse_xml_]
    show (let r := lyd_parse_top ext ctx [el] none options e
          if r.1 ≠ 0 then (none, r.2.1, r.2.2)
          else if r.2.1.isEmpty then (none, [], some .evalid)
          else if ext.resolve_unres_fails then (none, r.2.1, some .evalid)
          else (some r.2.1, [], r.2.2)) = (none, [], some .evalid)
    have htop : lyd_parse_top ext ctx [el] none options e = (0, [], e) := by
      rw [lyd_parse_top, hskip]
      simp [lyd_parse_top]
    rw [htop]
    simp

/-- Witness for the amended C4 at the concrete unknown-namespace
document. -/
theorem c4_lax_unknown_ns_amended_witness :
    xml_parse_data extSample ctxSample elemUnknownNs none none Options.zero none
        = (0, none, none)
    ∧ lyd_parse_xml_ extSample (some ctxSample) none (some rootUnknownNs)
        Options.zero none = (none, [], some .evalid) :=
  c4_lax_unknown_ns_amended extSample ctxSample elemUnknownNs rootUnknownNs
    "urn:x" Options.zero none rfl rfl rfl rfl

/-- C6: when the deferred leafref / instance-identifier resolution pass
fails after the document was built, lyd_parse_xml_ returns NULL (a
partially built tree is never returned), and every top-level tree the
loop constructed is passed to lyd_free. -/
theorem c6_resolution_failure_discards_tree (ext : Ext) (ctx : LyCtx)
    (parent : Option LysNode) (root : LyxmlElem) (options : Options)
    (e : Errno) (hfail : ext.resolve_unres_fails = true) :
    (lyd_parse_xml_ ext (some ctx) parent (some root) options e).1 = none
    ∧ ((lyd_parse_top ext ctx root.child parent options e).1 = 0 →
        (lyd_parse_xml_ ext (some ctx) parent (some root) options e).2.1
          = (lyd_parse_top ext ctx root.child parent options e).2.1) := by
  rw [lyd_parse_xml_]
  constructor
  · split
    · rfl
    · split
      · rfl
      · rfl
  · intro h0
    split
    · rename_i h1
      exact absurd h0 h1
    · split
      · rename_i h2
        exact (List.isEmpty_iff.mp h2).symm
      · rfl

/-- Witness for C6 at the concrete one-leaf document with a failing
resolution pass. -/
theorem c6_resolution_failure_discards_tree_witness :
    (lyd_parse_xml_ extFail (some ctxSample) none (some rootLeafSample)
        Options.zero none).1 = none
    ∧ ((lyd_parse_top extFail ctxSample rootLeafSample.child none
          Options.zero none).1 = 0 →
        (lyd_parse_xml_ extFail (some ctxSample) none (some rootLeafSample)
            Options.zero none).2.1
          = (lyd_parse_top extFail ctxSample rootLeafSample.child none
              Options.zero none).2.1) :=
  c6_resolution_failure_discards_tree extFail ctxSample none rootLeafSample
    Options.zero none rfl

/-- C10: the parse entry points validate their arguments before building
anything: lyd_parse_output_xml returns NULL with LY_EINVAL when the rpc
schema node is missing or is not an RPC, and lyd_parse_xml_ returns NULL
with LY_EINVAL when the context or the root element is missing; in both
cases no tree is built and nothing is freed. -/
theorem c10_entry_argument_validation :
    (∀ (ext : Ext) (ctx : LyCtx) (rpc : Option LysNode)
        (root : Option LyxmlElem) (options : Options) (e : Errno),
      (rpc = none ∨ ∃ r, rpc = some r ∧ r.nodetype ≠ .rpc) →
      lyd_parse_output_xml ext ctx rpc root options e = (none, [], some .einval))
    ∧ (∀ (ext : Ext) (ctx : Option LyCtx) (parent : Option LysNode)
        (root : Option LyxmlElem) (options : Options) (e : Errno),
      (ctx = none ∨ root = none) →
      lyd_parse_xml_ ext ctx parent root options e = (none, [], some .einval)) := by
  constructor
  · intro ext ctx rpc root options e h
    rcases h with rfl | ⟨r, rfl, hr⟩
    · rfl
    · rw [lyd_parse_output_xml]
      simp [hr]
  · intro ext ctx parent root options e h
    rcases h with rfl | rfl
    · rfl
    · cases ctx with
      | none => rfl
      | some c => rfl

/-- Witness for C10 at concrete invalid arguments (missing rpc node and
missing context). -/
theorem c10_entry_argument_validation_witness :
    lyd_parse_output_xml extSample ctxSample none none Options.zero none
        = (none, [], some .einval)
    ∧ lyd_parse_xml_ extSample none none none Options.zero none
        = (none, [], some .einval) :=
  ⟨c10_entry_argument_validation.1 extSample ctxSample none none Options.zero
      none (Or.inl rfl),
   c10_entry_argument_validation.2 extSample none none none Options.zero
      none (Or.inl rfl)⟩

/-- Witness for C7 at the concrete two-node ring 1, 2 extended by the
fresh node 3. -/
theorem c7_link_in_preserves_sibling_ring_witness :
    IsRing (lyd_link_sibling ringSample 3 (some 2) 2) ([1, 2] ++ [3])
    ∧ ∀ (st2 : RingState) (r : Nat), st2.next r = none →
        IsRing (lyd_link_sibling st2 r none 2) [r] :=
  c7_link_in_preserves_sibling_ring ringSample [1, 2] 3 2 2
    ⟨by simp, by simp, by
        rw [List.chain'_cons]
        exact ⟨⟨rfl, rfl⟩, List.chain'_singleton 2⟩,
      by intro x hx; rw [show ([1, 2] : List Nat).getLast? = some 2 from rfl] at hx;
         cases hx; rfl,
      by intro x y hx hy
         rw [show ([1, 2] : List Nat).head? = some 1 from rfl] at hx
         rw [show ([1, 2] : List Nat).getLast? = some 2 from rfl] at hy
         cases hx; cases hy; rfl⟩
    rfl (by simp) rfl (by decide)

/-- Helper: the backward duplicate scan of json_print_nodes over the
earlier siblings tests exactly membership of the schema identity among
the earlier siblings' schemas. -/
theorem seen_scan_iff (before : List LydNode) (x : Nat) :
    (before.reverse.any (fun it => it.schema.nid = x) = true)
      ↔ x ∈ before.map (fun d => d.schema.nid) := by
  simp only [List.any_eq_true, List.mem_reverse, List.mem_map, decide_eq_true_eq]

/-- Helper: the printer walk equals the claim-side walk, with the seen
set being the schema identities of the earlier siblings. -/
theorem json_go_eq_walk_claim (parent : Option LysNode) :
    ∀ (l before : List LydNode),
      json_print_nodes_go parent before l
        = json_walk_claim parent (before.map (fun d => d.schema.nid)) l := by
  intro l
  induction l with
  | nil =>
    intro before
    rw [json_print_nodes_go, json_walk_claim]
  | cons node rest ih =>
    intro before
    rw [json_print_nodes_go, json_walk_claim]
    have hmap : (before ++ [node]).map (fun d => d.schema.nid)
        = before.map (fun d => d.schema.nid) ++ [node.schema.nid] := by
      simp
    cases hnt : node.schema.nodetype
    case leaflist | list =>
      simp only [hnt]
      by_cases hin : node.schema.nid ∈ before.map (fun d => d.schema.nid)
      · rw [if_pos ((seen_scan_iff before node.schema.nid).mpr hin),
          if_pos hin, ih (before ++ [node]), hmap]
      · rw [if_neg (fun hc => hin ((seen_scan_iff before node.schema.nid).mp hc)),
          if_neg hin, ih (before ++ [node]), hmap]
    all_goals simp only [hnt]
    all_goals rw [ih (before ++ [node]), hmap]

/-- Helper: json_print_leaf_list always emits an event carrying the
schema identity of its node (value array, instance array or null
member). -/
theorem jsonListEmission_leaf_list (sid : Nat) (parent : Option LysNode)
    (node : LydNode) (rest : List LydNode) (b : Bool) :
    jsonListEmission sid (json_print_leaf_list parent node rest b)
      = decide (node.schema.nid = sid) := by
  rw [json_print_leaf_list]
  split
  · rfl
  · split
    · rfl
    · rfl

/-- Helper: counting arithmetic of the seen set. -/
theorem count_rhs_shift (sid nid : Nat) (seen : List Nat) (restAny : Bool)
    (hrest : sid = nid → restAny = false) :
    (if sid ∈ seen ++ [nid] then (0 : Nat) else if restAny then 1 else 0)
      = if sid ∈ seen then 0 else if restAny then 1 else 0 := by
  by_cases hs : sid ∈ seen
  · simp [hs]
  · by_cases hn : sid = nid
    · simp [hs, hn, hrest hn]
    · simp [hs, hn]

/-- Helper: at one sibling level the claim-side walk emits exactly one
list event for a schema identity with an instance not yet seen, and none
otherwise.  The hypothesis states that schema identity determines the
nodetype (schema nodes are shared, so equal pointers mean equal
nodes). -/
theorem walk_claim_emission_count (parent : Option LysNode) (sid : Nat) :
    ∀ (l : List LydNode) (seen : List Nat),
      (∀ a ∈ l, ∀ b ∈ l, a.schema.nid = b.schema.nid →
        a.schema.nodetype = b.schema.nodetype) →
      (json_walk_claim parent seen l).countP (jsonListEmission sid)
        = if sid ∈ seen then 0
          else if l.any (listInstOf sid) then 1 else 0 := by
  intro l
  induction l with
  | nil =>
    intro seen hwf
    rw [json_walk_claim]
    simp
  | cons node rest ih =>
    intro seen hwf
    have hwf' : ∀ a ∈ rest, ∀ b ∈ rest, a.schema.nid = b.schema.nid →
        a.schema.nodetype = b.schema.nodetype :=
      fun a ha b hb => hwf a (List.mem_cons_of_mem _ ha)
        b (List.mem_cons_of_mem _ hb)
    rw [json_walk_claim]
    cases hnt : node.schema.nodetype
    case leaflist | list =>
      by_cases hmem : node.schema.nid ∈ seen
      · rw [if_pos hmem, ih (seen ++ [node.schema.nid]) hwf']
        by_cases hs : sid ∈ seen
        · simp [hs]
        · have hn : ¬ sid = node.schema.nid := fun he => hs (he ▸ hmem)
          simp only [List.mem_append, List.mem_singleton, hs, hn, or_self,
            if_false, List.any_cons]
          have hn' : ¬ node.schema.nid = sid := fun he => hn he.symm
          have hno : listInstOf sid node = false := by
            simp [listInstOf, hn']
          simp [hno, hs]
      · rw [if_neg hmem, List.countP_cons, ih (seen ++ [node.schema.nid]) hwf',
          jsonListEmission_leaf_list]
        by_cases hs : sid ∈ seen
        · have hn : ¬ node.schema.nid = sid := fun he => hmem (he ▸ hs)
          simp [hs, hn]
        · by_cases hn : sid = node.schema.nid
          · have hin : sid ∈ seen ++ [node.schema.nid] := by simp [hn]
            simp only [hin, if_true, hs, if_false, List.any_cons]
            have hyes : listInstOf sid node = true := by
              simp [listInstOf, hnt, hn.symm]
            simp [hyes, hn.symm]
          · have hnin : sid ∉ seen ++ [node.schema.nid] := by
              simp [hs, hn]
            simp only [hnin, if_false, hs, List.any_cons]
            have hn' : ¬ node.schema.nid = sid := fun he => hn he.symm
            have hno : listInstOf sid node = false := by
              simp [listInstOf, hn']
            simp [hno, hn']
    all_goals (
      simp only [hnt]
      have hrest : sid = node.schema.nid → rest.any (listInstOf sid) = false := by
        intro he
        by_contra hc
        rw [Bool.not_eq_false] at hc
        obtain ⟨b, hb, hinst⟩ := List.any_eq_true.mp hc
        simp only [listInstOf, Bool.and_eq_true, decide_eq_true_eq] at hinst
        obtain ⟨hb1, hb2⟩ := hinst
        have hnn := hwf b (List.mem_cons_of_mem _ hb) node
          (List.mem_cons_self ..) (by rw [hb2, he])
        rw [hnt] at hnn
        rcases hb1 with h | h <;> rw [h] at hnn <;>
          exact LysNodeType.noConfusion hnn
      have hno : listInstOf sid node = false := by
        simp [listInstOf, hnt]
      first
      | (rw [List.countP_cons, ih (seen ++ [node.schema.nid]) hwf']
         have hhead : jsonListEmission sid (json_print_container parent node)
             = false := by simp [json_print_container, jsonListEmission]
         simp only [hhead, Bool.false_eq_true, if_false,
           Nat.add_zero, List.any_cons, hno, Bool.false_or]
         exact count_rhs_shift sid node.schema.nid seen _ hrest)
      | (rw [List.countP_cons, ih (seen ++ [node.schema.nid]) hwf']
         simp only [jsonListEmission, Bool.false_eq_true, if_false,
           Nat.add_zero, List.any_cons, hno, Bool.false_or]
         exact count_rhs_shift sid node.schema.nid seen _ hrest)
      | (rw [ih (seen ++ [node.schema.nid]) hwf']
         simp only [List.any_cons, hno, Bool.false_or]
         exact count_rhs_shift sid node.schema.nid seen _ hrest))

/-- C8: in JSON output, sibling instances of the same list or leaf-list
schema are printed exactly once as a single array emitted at the
position of the first instance: the walk equals the claim-side walk (a
node whose schema occurred among earlier siblings emits nothing; the
first instance emits the array gathering every later sibling instance of
that schema), and, when schema identity determines the nodetype, each
present list or leaf-list schema gets exactly one emission at this
sibling level and absent ones get none. -/
theorem c8_list_aggregation (parent : Option LysNode) (l : List LydNode) :
    json_print_nodes parent l = json_walk_claim parent [] l
    ∧ ∀ sid, (∀ a ∈ l, ∀ b ∈ l, a.schema.nid = b.schema.nid →
        a.schema.nodetype = b.schema.nodetype) →
      (json_print_nodes parent l).countP (jsonListEmission sid)
        = if l.any (listInstOf sid) then 1 else 0 := by
  have he : json_print_nodes parent l = json_walk_claim parent [] l := by
    rw [json_print_nodes, json_go_eq_walk_claim parent l []]
    rfl
  refine ⟨he, ?_⟩
  intro sid hwf
  rw [he, walk_claim_emission_count parent sid l [] hwf]
  simp

/-- Witness for C8 at the concrete sibling level of two leaf-list
instances of schema 10 separated by a leaf. -/
theorem c8_list_aggregation_witness :
    json_print_nodes none sampleSiblings = json_walk_claim none [] sampleSiblings
    ∧ (json_print_nodes none sampleSiblings).countP (jsonListEmission 10)
        = if sampleSiblings.any (listInstOf 10) then 1 else 0 :=
  ⟨(c8_list_aggregation none sampleSiblings).1,
   (c8_list_aggregation none sampleSiblings).2 10 (by decide)⟩

/-- Counterexample to C9: the printed form of a list instance carrying
an attribute is a single instance-object array whose element holds the
attributes inline under an "at"-style member; no parallel attribute
array follows the instance array anywhere in the output, contrary to the
claim that list element attributes are printed as a parallel array. -/
theorem c9_list_attrs_counterexample :
    json_print_nodes none [listInstSample]
      = [JsonOut.listArr 20 (json_qname none listSchemaSample)
          [(some [("a", "1")],
            [JsonOut.leaf (json_qname (some listSchemaSample) leafYSchemaSample)
              (.quoted "v") none])]]
    ∧ (json_print_nodes none [listInstSample]).all
        (fun o => !hasParallelAttrArray o) = true := by
  have h1 : json_print_nodes none [listInstSample]
      = [JsonOut.listArr 20 (json_qname none listSchemaSample)
          [(some [("a", "1")],
            [JsonOut.leaf (json_qname (some listSchemaSample) leafYSchemaSample)
              (.quoted "v") none])]] := by
    simp [json_print_nodes, json_print_nodes_go.eq_def,
      json_print_leaf_list.eq_def, json_print_list_elems.eq_def,
      listInstSample, listSchemaSample, leafChildInst, leafYSchemaSample,
      LydNode.schema, LydNode.attr, LydNode.child, LydNode.leaf, LydNode.anyv,
      LysNode.nodetype, LysNode.nid, lyd_child_slot_null, collectSameSchema,
      json_print_attrs, json_print_leaf_value, LydNode.lref,
      LysNode.module, LyModRef.effName]
  refine ⟨h1, ?_⟩
  rw [h1]
  rfl

/-- Helper: the remaining list instance objects are in one-to-one
correspondence with the later same-schema siblings, each holding an
inline attribute object exactly when the instance has attributes, with
the printed content taken from the first instance. -/
theorem json_print_list_elems_forall₂ (node : LydNode) :
    ∀ (l : List LydNode),
      List.Forall₂
        (fun (e : Option (List (String × String)) × List JsonOut)
             (i : LydNode) =>
          (e.1 = none ↔ i.attr = [])
          ∧ ∀ aa, e.1 = some aa → aa = json_print_attrs node)
        (json_print_list_elems node l) (collectSameSchema node.schema l) := by
  intro l
  induction l with
  | nil =>
    rw [json_print_list_elems, collectSameSchema]
    exact List.Forall₂.nil
  | cons i is ih =>
    rw [json_print_list_elems, collectSameSchema, List.filter_cons]
    by_cases hi : i.schema.nid = node.schema.nid
    · simp only [hi, decide_true_eq_true, if_true]
      refine List.Forall₂.cons ⟨?_, ?_⟩ ih
      · by_cases ha : i.attr.isEmpty
        · simp [ha, List.isEmpty_iff.mp ha]
        · simp only [ha, if_false]
          constructor
          · intro hc
            exact Option.noConfusion hc
          · intro hc
            exact absurd (by simp [hc] : i.attr.isEmpty = true) ha
      · intro aa haa
        by_cases ha : i.attr.isEmpty
        · rw [if_pos ha] at haa
          exact Option.noConfusion haa
        · rw [if_neg ha] at haa
          exact (Option.some.inj haa).symm
    · simp only [hi, decide_eq_true_eq, if_false]
      exact ih

/-- C9 as amended: a parallel attribute array (one object or null per
instance) follows the value array only for LEAF-LIST instances, and only
when some instance has attributes; LIST instance attributes are instead
printed inline inside each instance object (and the attribute content
printed there is taken from the first instance, which is what the code
does by passing node rather than the loop variable). -/
theorem c9_amended_attribute_rendering (parent : Option LysNode)
    (node : LydNode) (rest : List LydNode)
    (hv : lyd_child_slot_null node = false) :
    (∃ parAttrs,
        json_print_leaf_list parent node rest false
          = JsonOut.leafListArr node.schema.nid (json_qname parent node.schema)
              ((node :: collectSameSchema node.schema rest).map
                json_print_leaf_value) parAttrs
        ∧ (((node :: collectSameSchema node.schema rest).any
              (fun i => ¬ i.attr.isEmpty)) →
            parAttrs
              = some (instAttrArray (node :: collectSameSchema node.schema rest))
            ∧ List.Forall₂
                (fun (o : Option (List (String × String))) (i : LydNode) =>
                  (o = none ↔ i.attr = [])
                  ∧ ∀ aa, o = some aa → aa = json_print_attrs i)
                (instAttrArray (node :: collectSameSchema node.schema rest))
                (node :: collectSameSchema node.schema rest))
        ∧ ((¬ ((node :: collectSameSchema node.schema rest).any
              (fun i => ¬ i.attr.isEmpty)) = true) →
            parAttrs = none))
    ∧ (∃ elems,
        json_print_leaf_list parent node rest true
          = JsonOut.listArr node.schema.nid (json_qname parent node.schema)
              elems
        ∧ List.Forall₂
            (fun (e : Option (List (String × String)) × List JsonOut)
                 (i : LydNode) =>
              (e.1 = none ↔ i.attr = [])
              ∧ ∀ aa, e.1 = some aa → aa = json_print_attrs node)
            elems (node :: collectSameSchema node.schema rest)) := by
  constructor
  · refine ⟨if ((node :: collectSameSchema node.schema rest).any
          (fun i => ¬ i.attr.isEmpty)) then
        some (instAttrArray (node :: collectSameSchema node.schema rest))
      else none, ?_, ?_, ?_⟩
    · rw [json_print_leaf_list, if_neg (by simp [hv]), if_neg (by simp)]
    · intro hany
      refine ⟨by rw [if_pos hany], ?_⟩
      rw [instAttrArray, List.forall₂_map_left_iff]
      rw [List.forall₂_same]
      intro i hi
      constructor
      · by_cases ha : i.attr.isEmpty
        · simp [ha, List.isEmpty_iff.mp ha]
        · simp only [ha, if_false]
          constructor
          · intro hc
            exact Option.noConfusion hc
          · intro hc
            exact absurd (by simp [hc] : i.attr.isEmpty = true) ha
      · intro aa haa
        by_cases ha : i.attr.isEmpty
        · rw [if_pos ha] at haa
          exact Option.noConfusion haa
        · rw [if_neg ha] at haa
          exact (Option.some.inj haa).symm
    · intro hnone
      rw [if_neg hnone]
  · refine ⟨(if node.attr.isEmpty then none else some (json_print_attrs node),
        json_print_nodes_go (some node.schema) [] node.child)
        :: json_print_list_elems node rest, ?_, ?_⟩
    · rw [json_print_leaf_list, if_neg (by simp [hv]), if_pos rfl]
    · refine List.Forall₂.cons ⟨?_, ?_⟩ (json_print_list_elems_forall₂ node rest)
      · by_cases ha : node.attr.isEmpty
        · simp [ha, List.isEmpty_iff.mp ha]
        · simp only [ha, if_false]
          constructor
          · intro hc
            exact Option.noConfusion hc
          · intro hc
            exact absurd (by simp [hc] : node.attr.isEmpty = true) ha
      · intro aa haa
        by_cases ha : node.attr.isEmpty
        · rw [if_pos ha] at haa
          exact Option.noConfusion haa
        · rw [if_neg ha] at haa
          exact (Option.some.inj haa).symm

/-- Witness for the amended C9 at the concrete leaf-list and list
samples. -/
theorem c9_amended_attribute_rendering_witness :
    lyd_child_slot_null llInst2 = false
    ∧ (∃ parAttrs,
        json_print_leaf_list none llInst2 [] false
          = JsonOut.leafListArr llInst2.schema.nid
              (json_qname none llInst2.schema)
              ((llInst2 :: collectSameSchema llInst2.schema []).map
                json_print_leaf_value) parAttrs
        ∧ (((llInst2 :: collectSameSchema llInst2.schema []).any
              (fun i => ¬ i.attr.isEmpty)) →
            parAttrs
              = some (instAttrArray (llInst2 :: collectSameSchema llInst2.schema []))
            ∧ List.Forall₂
                (fun (o : Option (List (String × String))) (i : LydNode) =>
                  (o = none ↔ i.attr = [])
                  ∧ ∀ aa, o = some aa → aa = json_print_attrs i)
                (instAttrArray (llInst2 :: collectSameSchema llInst2.schema []))
                (llInst2 :: collectSameSchema llInst2.schema []))
        ∧ ((¬ ((llInst2 :: collectSameSchema llInst2.schema []).any
              (fun i => ¬ i.attr.isEmpty)) = true) →
            parAttrs = none)) :=
  ⟨rfl, (c9_amended_attribute_rendering none llInst2 [] rfl).1⟩

end Libyang
